import Mathlib

set_option autoImplicit false

/-!
Shallow embedding of `nlc_model.py` (a pyramidal bidirectional seq2seq model
with attention).  Tensors are modelled time-major as lists of rows
(`Mat α = List (List α)`); a row holds one value per batch example.
Machine floats are modelled by `ℚ`; transcendental functions coming from the
tensor library (exp, tanh, the learned linear layers, the optimizer) are
taken as explicit function parameters, with the properties actually needed
stated as hypotheses.
-/

namespace NLC

/-- A time-major 2-D tensor: outer index is the time axis, inner the batch. -/
abbrev Mat (α : Type) : Type := List (List α)

/-- Entry of a time-major tensor at time `t`, batch `b` (default `d` out of range). -/
def entry {α : Type} (d : α) (m : Mat α) (t b : ℕ) : α := (m.getD t []).getD b d

/-- Column `b` of a time-major tensor: the value-sequence of batch example `b`. -/
def colD {α : Type} (d : α) (m : Mat α) (b : ℕ) : List α :=
  m.map (fun row => row.getD b d)

/-- Model of `tf.transpose` on a 2-D tensor whose rows have length `numCols`. -/
def transposeD {α : Type} (d : α) (numCols : ℕ) (m : Mat α) : Mat α :=
  (List.range numCols).map (fun b => m.map (fun row => row.getD b d))

/-- Model of `tf.reduce_sum(mask, reduction_indices=0)` (source line 77):
sum the rows of an integer tensor elementwise, giving one total per batch
example.  `B` is the static batch size (the row width). -/
def reduce_sum0 {α : Type} [AddCommMonoid α] (B : ℕ) (m : Mat α) : List α :=
  m.foldr (fun row acc => List.zipWith (· + ·) row acc) (List.replicate B 0)

/-- Count of leading ones of one mask column. -/
def leadingOnes (col : List ℕ) : ℕ := (col.takeWhile (fun x => x == 1)).length

/-- A valid padding-mask column: `k` ones followed by zeros. -/
def prefixCol (col : List ℕ) : Prop :=
  ∃ k, k ≤ col.length ∧ col = List.replicate k 1 ++ List.replicate (col.length - k) 0

theorem length_reduce_sum0 {α : Type} [AddCommMonoid α] (B : ℕ) (m : Mat α)
    (h : ∀ row ∈ m, row.length = B) :
    (reduce_sum0 B m).length = B := by
  induction m with
  | nil => simp [reduce_sum0]
  | cons row rest ih =>
      have hrow : row.length = B := h row (by simp)
      have hrest : (reduce_sum0 B rest).length = B :=
        ih (fun r hr => h r (by simp [hr]))
      simp [reduce_sum0] at hrest ⊢
      omega

theorem reduce_sum0_getD {α : Type} [AddCommMonoid α] (B : ℕ) (m : Mat α)
    (h : ∀ row ∈ m, row.length = B) (b : ℕ) (hb : b < B) :
    (reduce_sum0 B m).getD b 0 = (colD 0 m b).sum := by
  induction m with
  | nil =>
      simp [reduce_sum0, colD, List.getD]
  | cons row rest ih =>
      have hrow : row.length = B := h row (by simp)
      have hrest : ∀ r ∈ rest, r.length = B := fun r hr => h r (by simp [hr])
      have hlen : (reduce_sum0 B rest).length = B := length_reduce_sum0 B rest hrest
      have hb1 : b < row.length := by omega
      have hb2 : b < (reduce_sum0 B rest).length := by omega
      have hstep : reduce_sum0 B (row :: rest)
          = List.zipWith (· + ·) row (reduce_sum0 B rest) := rfl
      have hzlen : b < (List.zipWith (· + ·) row (reduce_sum0 B rest)).length := by
        rw [List.length_zipWith]; omega
      calc (reduce_sum0 B (row :: rest)).getD b 0
          = (List.zipWith (· + ·) row (reduce_sum0 B rest)).getD b 0 := by rw [hstep]
        _ = (List.zipWith (· + ·) row (reduce_sum0 B rest))[b] := List.getD_eq_getElem _ _ hzlen
        _ = row[b] + (reduce_sum0 B rest)[b] := List.getElem_zipWith
        _ = row.getD b 0 + (reduce_sum0 B rest).getD b 0 := by
              rw [List.getD_eq_getElem _ _ hb1, List.getD_eq_getElem _ _ hb2]
        _ = row.getD b 0 + (colD 0 rest b).sum := by rw [ih hrest]
        _ = (colD 0 (row :: rest) b).sum := by simp [colD]

theorem sum_prefixCol (col : List ℕ) (k : ℕ) (hk : k ≤ col.length)
    (h : col = List.replicate k 1 ++ List.replicate (col.length - k) 0) :
    col.sum = k := by
  rw [h]; simp

theorem takeWhile_one_replicate_zero (r : ℕ) :
    (List.replicate r 0).takeWhile (fun x : ℕ => x == 1) = [] := by
  cases r with
  | zero => rfl
  | succ n => rfl

theorem leadingOnes_prefixCol (col : List ℕ) (k : ℕ) (hk : k ≤ col.length)
    (h : col = List.replicate k 1 ++ List.replicate (col.length - k) 0) :
    leadingOnes col = k := by
  rw [leadingOnes, h]
  rw [List.takeWhile_append_of_pos ?pos]
  case pos => intro a ha; simp [List.eq_of_mem_replicate ha]
  rw [takeWhile_one_replicate_zero]
  simp

/-- C6: for every mask tensor of shape (time, batch) whose columns are
contiguous prefixes of 1s followed by 0s, the derived length vector
`tf.reduce_sum(mask, reduction_indices=0)` (source line 77) equals, per
example, the number of leading 1s of that example's mask column. -/
theorem length_vector_counts_leading_ones (B : ℕ) (mask : Mat ℕ)
    (hshape : ∀ row ∈ mask, row.length = B)
    (hcols : ∀ b < B, prefixCol (colD 0 mask b)) :
    ∀ b < B, (reduce_sum0 B mask).getD b 0 = leadingOnes (colD 0 mask b) := by
  intro b hb
  obtain ⟨k, hk, hcol⟩ := hcols b hb
  rw [reduce_sum0_getD B mask hshape b hb,
    sum_prefixCol _ k hk hcol, leadingOnes_prefixCol _ k hk hcol]

/-- Concrete instance for the length/leading-ones theorem. -/
theorem length_vector_counts_leading_ones_witness :
    (∀ row ∈ ([[1, 1], [1, 0], [0, 0]] : Mat ℕ), row.length = 2) ∧
    (∀ b < 2, prefixCol (colD 0 ([[1, 1], [1, 0], [0, 0]] : Mat ℕ) b)) ∧
    (∀ b < 2, (reduce_sum0 2 ([[1, 1], [1, 0], [0, 0]] : Mat ℕ)).getD b 0
      = leadingOnes (colD 0 ([[1, 1], [1, 0], [0, 0]] : Mat ℕ) b)) := by
  refine ⟨by decide, ?_, ?_⟩
  · intro b hb
    interval_cases b
    · exact ⟨2, by decide, by decide⟩
    · exact ⟨1, by decide, by decide⟩
  · exact length_vector_counts_leading_ones 2 _ (by decide)
      (fun b hb => by
        interval_cases b
        · exact ⟨2, by decide, by decide⟩
        · exact ⟨1, by decide, by decide⟩)

/-! ### Training driver state (source lines 61-96, 193-216)

The mutable scalar training state of `NLCModel` and the session-level
contract of `train` / `test`.  The loss, gradient, global-norm (a float
square root) and optimizer-apply computations are black-box functions of the
parameter vector, carried in a `Graph` record; the properties needed of the
norm are stated as hypotheses where used. -/

structure ModelState where
  params : List ℚ
  learning_rate : ℚ
  global_step : ℕ

/-- Model of `self.learning_rate_decay_op` (source line 70): assign
`learning_rate * learning_rate_decay_factor` to `learning_rate`. -/
def learning_rate_decay_op (factor : ℚ) (s : ModelState) : ModelState :=
  { s with learning_rate := s.learning_rate * factor }

structure Graph where
  lossF : List ℚ → ℚ
  gradF : List ℚ → List ℚ
  outF : List ℚ → List (List (List ℚ))
  normF : List ℚ → ℚ
  applyF : List ℚ → List ℚ → List ℚ
  max_gradient_norm : ℚ

/-- Model of `tf.clip_by_global_norm(gradients, max_gradient_norm)` (source
line 90): every tensor is scaled by `clip_norm / max(global_norm, clip_norm)`. -/
def clip_by_global_norm (g : Graph) (grads : List ℚ) : List ℚ :=
  grads.map (fun x => x * (g.max_gradient_norm / max (g.normF grads) g.max_gradient_norm))

def clipped_gradients (g : Graph) (s : ModelState) : List ℚ :=
  clip_by_global_norm g (g.gradF s.params)

/-- Model of `self.gradient_norm = tf.global_norm(clipped_gradients)` (line 91). -/
def gradient_norm_val (g : Graph) (s : ModelState) : ℚ :=
  g.normF (clipped_gradients g s)

/-- Model of `self.param_norm = tf.global_norm(params)` (line 92). -/
def param_norm_val (g : Graph) (s : ModelState) : ℚ :=
  g.normF s.params

inductive Fetch where
  | updates
  | gradient_norm
  | losses
  | param_norm
  | outputs
deriving DecidableEq

inductive FetchVal where
  | opDone
  | scalar (q : ℚ)
  | tensor (t : List (List (List ℚ)))

/-- Value of one fetched graph node, read against the pre-step parameters. -/
def evalFetch (g : Graph) (s : ModelState) : Fetch → FetchVal
  | .updates => .opDone
  | .gradient_norm => .scalar (gradient_norm_val g s)
  | .losses => .scalar (g.lossF s.params)
  | .param_norm => .scalar (param_norm_val g s)
  | .outputs => .tensor (g.outF s.params)

/-- Model of `opt.apply_gradients(zip(clipped_gradients, params),
global_step=self.global_step)` (lines 93-94): the optimizer rewrites the
parameters from the clipped gradients and increments the global step once. -/
def applyUpdates (g : Graph) (s : ModelState) : ModelState :=
  { s with params := g.applyF s.params (clipped_gradients g s),
           global_step := s.global_step + 1 }

/-- Model of `session.run(output_feed, input_feed)`: every fetched tensor is
evaluated against the pre-step state; the parameter update runs iff the
`updates` op is among the fetches. -/
def sessionRun (g : Graph) (s : ModelState) (fetches : List Fetch) :
    List FetchVal × ModelState :=
  (fetches.map (evalFetch g s),
   if Fetch.updates ∈ fetches then applyUpdates g s else s)

def asScalar : FetchVal → ℚ
  | .scalar q => q
  | _ => 0

def asTensor : FetchVal → List (List (List ℚ))
  | .tensor t => t
  | _ => []

/-- Model of `NLCModel.train` (source lines 193-204): fetch
`[updates, gradient_norm, losses, param_norm]` and return components 1-3. -/
def train (g : Graph) (s : ModelState) : (ℚ × ℚ × ℚ) × ModelState :=
  let r := sessionRun g s [.updates, .gradient_norm, .losses, .param_norm]
  ((asScalar (r.1.getD 1 .opDone), asScalar (r.1.getD 2 .opDone),
    asScalar (r.1.getD 3 .opDone)), r.2)

/-- Model of `NLCModel.test` (source lines 206-216): fetch
`[losses, outputs]` and return both, with no update op among the fetches. -/
def test (g : Graph) (s : ModelState) : (ℚ × List (List (List ℚ))) × ModelState :=
  let r := sessionRun g s [.losses, .outputs]
  ((asScalar (r.1.getD 0 .opDone), asTensor (r.1.getD 1 .opDone)), r.2)

/-- Sum of squares of a gradient vector: the square of its global norm. -/
def sumSq (l : List ℚ) : ℚ := (l.map (fun x => x * x)).sum

theorem sumSq_map_mul (l : List ℚ) (a : ℚ) :
    sumSq (l.map (fun x => x * a)) = a ^ 2 * sumSq l := by
  induction l with
  | nil => simp [sumSq]
  | cons x xs ih =>
      simp only [sumSq, List.map_cons, List.sum_cons] at ih ⊢
      rw [ih]; ring

/-- C8: each invocation of the learning-rate decay op multiplies the rate by
the decay factor; `n` invocations multiply by the factor `n` times, and the
spec's concrete scenario (rate 0.1, factor 0.5, one invocation → 0.05) holds. -/
theorem learning_rate_decay_geometric :
    (∀ (factor : ℚ) (s : ModelState) (n : ℕ),
      ((learning_rate_decay_op factor)^[n] s).learning_rate
        = s.learning_rate * factor ^ n)
    ∧ ((learning_rate_decay_op (1/2))
        ⟨[], 1/10, 0⟩).learning_rate = 1/20
    ∧ (∀ n : ℕ, ((learning_rate_decay_op (1/2))^[n]
        ⟨[], 1/10, 0⟩).learning_rate = (1/10) * (1/2) ^ n) := by
  have hgen : ∀ (factor : ℚ) (s : ModelState) (n : ℕ),
      ((learning_rate_decay_op factor)^[n] s).learning_rate
        = s.learning_rate * factor ^ n := by
    intro factor s n
    induction n with
    | zero => simp
    | succ n ih =>
        rw [Function.iterate_succ_apply', learning_rate_decay_op, ih]
        ring
  refine ⟨hgen, by norm_num [learning_rate_decay_op], fun n => hgen _ _ n⟩

/-- C9: the test step fetches only forward-pass nodes, so it returns the pair
(loss, output distributions) and leaves the parameters, the learning rate and
the global step exactly as they were: the optimizer update never runs. -/
theorem test_executes_only_forward (g : Graph) (s : ModelState) :
    (test g s).1 = (g.lossF s.params, g.outF s.params)
    ∧ (test g s).2.params = s.params
    ∧ (test g s).2.learning_rate = s.learning_rate
    ∧ (test g s).2.global_step = s.global_step
    ∧ (test g s).2 = s := by
  have hrun : test g s = ((g.lossF s.params, g.outF s.params), s) := by
    simp [test, sessionRun, evalFetch, asScalar, asTensor]
  refine ⟨by rw [hrun], by rw [hrun], by rw [hrun], by rw [hrun], by rw [hrun]⟩

/-- C7: the train step returns the triple (gradient norm, loss, parameter
norm), where the reported gradient norm is the global norm of the clipped
gradients and never exceeds `max_gradient_norm`.  The global-norm function is
a black box constrained, at the two points where it is read, to be the
nonnegative square root of the sum of squares. -/
theorem train_reports_clipped_norm (g : Graph) (s : ModelState)
    (hmax : 0 < g.max_gradient_norm)
    (hn0 : 0 ≤ g.normF (g.gradF s.params))
    (hnsq : (g.normF (g.gradF s.params)) ^ 2 = sumSq (g.gradF s.params))
    (hc0 : 0 ≤ g.normF (clipped_gradients g s))
    (hcsq : (g.normF (clipped_gradients g s)) ^ 2 = sumSq (clipped_gradients g s)) :
    (train g s).1 = (gradient_norm_val g s, g.lossF s.params, param_norm_val g s)
    ∧ gradient_norm_val g s ≤ g.max_gradient_norm := by
  constructor
  · rfl
  · set n := g.normF (g.gradF s.params) with hn
    set M := g.max_gradient_norm with hM
    have hden : 0 < max n M := lt_of_lt_of_le hmax (le_max_right _ _)
    have hclip : sumSq (clipped_gradients g s) = (M / max n M) ^ 2 * sumSq (g.gradF s.params) := by
      rw [clipped_gradients, clip_by_global_norm, ← hn, ← hM, sumSq_map_mul]
    have hnle : n ≤ max n M := le_max_left _ _
    have hsq : (g.normF (clipped_gradients g s)) ^ 2 ≤ M ^ 2 := by
      rw [hcsq, hclip, ← hnsq]
      have h1 : n ^ 2 ≤ (max n M) ^ 2 := by nlinarith
      have h2 : (M / max n M) ^ 2 * (max n M) ^ 2 = M ^ 2 := by
        field_simp
      nlinarith [sq_nonneg (M / max n M)]
    have : gradient_norm_val g s = g.normF (clipped_gradients g s) := rfl
    rw [this]
    nlinarith [hc0, hmax]

/-- Concrete graph used to witness the gradient-clipping theorem: raw
gradient [3, 4] has global norm 5; with max norm 1 the clipped gradient is
[3/5, 4/5], of global norm 1. -/
def witnessGraph : Graph :=
  { lossF := fun _ => 0
    gradF := fun _ => [3, 4]
    outF := fun _ => []
    normF := fun l => if l = [3, 4] then 5 else if l = [3/5, 4/5] then 1 else 0
    applyF := fun p _ => p
    max_gradient_norm := 1 }

def witnessState : ModelState := ⟨[0], 1/10, 0⟩

/-- Witness for the gradient-clipping theorem at the concrete graph above. -/
theorem train_reports_clipped_norm_witness :
    (train witnessGraph witnessState).1
      = (gradient_norm_val witnessGraph witnessState,
         witnessGraph.lossF witnessState.params,
         param_norm_val witnessGraph witnessState)
    ∧ gradient_norm_val witnessGraph witnessState
        ≤ witnessGraph.max_gradient_norm :=
  train_reports_clipped_norm witnessGraph witnessState
    (by norm_num [witnessGraph])
    (by norm_num [witnessGraph, witnessState])
    (by norm_num [witnessGraph, witnessState, sumSq])
    (by norm_num [witnessGraph, witnessState, clipped_gradients,
      clip_by_global_norm])
    (by norm_num [witnessGraph, witnessState, clipped_gradients,
      clip_by_global_norm, sumSq])

/-! ### Attention weights (GRUCellAttn.__call__, source lines 46-58)

The unnormalized scores are `tf.reduce_sum(phi_hs * gamma_h, axis=2)`; the
weights are `exp(scores - max_time)` divided by `1e-6 + sum_time`.  The float
exponential is a black-box parameter `e`; the only properties used are that
it is positive and that `e 0 = 1`. -/

/-- The softmax epsilon `1e-6` of source line 53. -/
def attnEps : ℚ := 1 / 1000000

/-- Dot product over the feature axis. -/
def dot (u v : List ℚ) : ℚ := (List.zipWith (· * ·) u v).sum

/-- Model of `tf.reduce_sum(self.phi_hs * gamma_h, reduction_indices=2)`
(source line 51): `gamma` (shape batch × units) is broadcast over the time
axis of `phi` (time × batch × units). -/
def attn_scores (phi : Mat (List ℚ)) (gamma : List (List ℚ)) : Mat ℚ :=
  phi.map (fun row => List.zipWith dot row gamma)

/-- Maximum of one column (reduction over the time axis). -/
def columnMax (col : List ℚ) : ℚ :=
  match col with
  | [] => 0
  | h :: t => t.foldl max h

/-- Model of `tf.reduce_max(weights, reduction_indices=0, keep_dims=True)`
(source line 52): per-example maximum over the time axis. -/
def reduce_max0 (B : ℕ) (m : Mat ℚ) : List ℚ :=
  (List.range B).map (fun b => columnMax (colD 0 m b))

/-- Model of source lines 52-53: subtract the per-example time-axis maximum,
exponentiate, and divide by `1e-6 +` the per-example time-axis sum. -/
def attn_weights (e : ℚ → ℚ) (B : ℕ) (scores : Mat ℚ) : Mat ℚ :=
  let maxes := reduce_max0 B scores
  let expw := scores.map (fun row =>
    List.zipWith (fun sc mx => e (sc - mx)) row maxes)
  let sums := reduce_sum0 B expw
  expw.map (fun row => List.zipWith (fun w sm => w / (attnEps + sm)) row sums)

/-- The attention weights of one decoder step, from the precomputed encoder
projection `phi` and the query projection `gamma`. -/
def GRUCellAttn_weights (e : ℚ → ℚ) (B : ℕ)
    (phi : Mat (List ℚ)) (gamma : List (List ℚ)) : Mat ℚ :=
  attn_weights e B (attn_scores phi gamma)

theorem foldl_max_mem (a : ℚ) (t : List ℚ) : List.foldl max a t ∈ a :: t := by
  induction t generalizing a with
  | nil => simp
  | cons x t ih =>
      show List.foldl max (max a x) t ∈ a :: x :: t
      rcases List.mem_cons.mp (ih (max a x)) with hc | hc
      · rcases max_choice a x with hm | hm
        · rw [hc, hm]; exact List.mem_cons_self _ _
        · rw [hc, hm]; exact List.mem_cons.mpr (Or.inr (List.mem_cons_self _ _))
      · exact List.mem_cons.mpr (Or.inr (List.mem_cons.mpr (Or.inr hc)))

theorem columnMax_mem (col : List ℚ) (h : col ≠ []) : columnMax col ∈ col := by
  match col, h with
  | h₀ :: t, _ => exact foldl_max_mem h₀ t

theorem sum_map_div (l : List ℚ) (c : ℚ) :
    (l.map (fun x => x / c)).sum = l.sum / c := by
  induction l with
  | nil => simp
  | cons x xs ih => simp [ih]; ring

theorem getD_range_map {α : Type} (d : α) (f : ℕ → α) (B b : ℕ) (hb : b < B) :
    (((List.range B).map f).getD b d) = f b := by
  have hlen : b < ((List.range B).map f).length := by simp [hb]
  rw [List.getD_eq_getElem _ _ hlen]
  simp

theorem colD_map_zipWith_col (f : ℚ → ℚ → ℚ) (m : Mat ℚ) (v : List ℚ)
    (B : ℕ) (hv : v.length = B) (hm : ∀ row ∈ m, row.length = B)
    (b : ℕ) (hb : b < B) :
    colD 0 (m.map (fun row => List.zipWith f row v)) b
      = (colD 0 m b).map (fun x => f x (v.getD b 0)) := by
  induction m with
  | nil => simp [colD]
  | cons row rest ih =>
      have hrow : row.length = B := hm row (by simp)
      have hrest := ih (fun r hr => hm r (by simp [hr]))
      simp only [List.map_cons, colD] at hrest ⊢
      congr 1
      · have hblt : b < (List.zipWith f row v).length := by
          rw [List.length_zipWith]; omega
        rw [List.getD_eq_getElem _ _ hblt, List.getElem_zipWith,
          List.getD_eq_getElem _ _ (by omega : b < row.length),
          List.getD_eq_getElem _ _ (by omega : b < v.length)]

/-- C2: the attention weights are a numerically stable softmax over the
encoder-time axis: for every batch example, provided there is at least one
encoder timestep, the weights of that example sum to within `1e-6` of 1.
`e` is the float exponential, assumed positive with `e 0 = 1`. -/
theorem attention_weights_sum_to_one (e : ℚ → ℚ) (B : ℕ)
    (phi : Mat (List ℚ)) (gamma : List (List ℚ))
    (hphi : ∀ row ∈ phi, row.length = B) (hgamma : gamma.length = B)
    (hT : phi ≠ [])
    (hepos : ∀ x, 0 < e x) (he0 : e 0 = 1) :
    ∀ b < B, |(colD 0 (GRUCellAttn_weights e B phi gamma) b).sum - 1| ≤ attnEps := by
  intro b hb
  set scores := attn_scores phi gamma with hscores
  have hsshape : ∀ row ∈ scores, row.length = B := by
    intro row hrow
    rw [hscores, attn_scores] at hrow
    obtain ⟨prow, hp, hrw⟩ := List.mem_map.mp hrow
    rw [← hrw, List.length_zipWith, hphi prow hp, hgamma, min_self]
  have hsne : scores ≠ [] := by
    rw [hscores, attn_scores]
    intro hc; exact hT (List.map_eq_nil_iff.mp hc)
  -- the per-example max over the time axis
  set M := (reduce_max0 B scores).getD b 0 with hM
  have hMval : M = columnMax (colD 0 scores b) := by
    rw [hM, reduce_max0, getD_range_map _ _ B b hb]
  set expw := scores.map (fun row =>
    List.zipWith (fun sc mx => e (sc - mx)) row (reduce_max0 B scores)) with hexpw
  have hmaxlen : (reduce_max0 B scores).length = B := by simp [reduce_max0]
  have hexpwshape : ∀ row ∈ expw, row.length = B := by
    intro row hrow
    rw [hexpw] at hrow
    obtain ⟨prow, hp, hrw⟩ := List.mem_map.mp hrow
    rw [← hrw, List.length_zipWith, hsshape prow hp, hmaxlen, min_self]
  have hexpwcol : colD 0 expw b = (colD 0 scores b).map (fun sc => e (sc - M)) := by
    rw [hexpw]
    exact colD_map_zipWith_col (fun sc mx => e (sc - mx)) scores
      (reduce_max0 B scores) B hmaxlen hsshape b hb
  set S := (reduce_sum0 B expw).getD b 0 with hS
  have hSval : S = (colD 0 expw b).sum := reduce_sum0_getD B expw hexpwshape b hb
  have hwcol : colD 0 (GRUCellAttn_weights e B phi gamma) b
      = (colD 0 expw b).map (fun w => w / (attnEps + S)) := by
    rw [GRUCellAttn_weights, attn_weights]
    exact colD_map_zipWith_col (fun w sm => w / (attnEps + sm)) expw
      (reduce_sum0 B expw) B (length_reduce_sum0 B expw hexpwshape) hexpwshape b hb
  -- the column of scores is nonempty and contains its maximum
  have hcollen : (colD 0 scores b).length = scores.length := by simp [colD]
  have hcolne : colD 0 scores b ≠ [] := by
    intro hc
    apply hsne
    have := hcollen
    rw [hc] at this
    exact List.length_eq_zero.mp this.symm
  have hMmem : M ∈ colD 0 scores b := hMval ▸ columnMax_mem _ hcolne
  -- hence the exponentiated column contains e 0 = 1 and is positive
  have hone : (1 : ℚ) ∈ colD 0 expw b := by
    rw [hexpwcol]
    have : e (M - M) = 1 := by rw [sub_self, he0]
    exact this ▸ List.mem_map_of_mem (fun sc => e (sc - M)) hMmem
  have hpos : ∀ x ∈ colD 0 expw b, (0 : ℚ) ≤ x := by
    intro x hx
    rw [hexpwcol] at hx
    obtain ⟨sc, _, hrw⟩ := List.mem_map.mp hx
    exact le_of_lt (hrw ▸ hepos _)
  have hS1 : 1 ≤ S := hSval ▸ List.single_le_sum hpos 1 hone
  have hd : 0 < attnEps + S := by
    have : (0 : ℚ) < attnEps := by norm_num [attnEps]
    linarith
  have hsum : (colD 0 (GRUCellAttn_weights e B phi gamma) b).sum = S / (attnEps + S) := by
    rw [hwcol, sum_map_div, hSval]
  rw [hsum, abs_le]
  have heps : (0 : ℚ) < attnEps := by norm_num [attnEps]
  have hmul : S / (attnEps + S) * (attnEps + S) = S := div_mul_cancel₀ S (ne_of_gt hd)
  constructor
  · nlinarith [hmul, hd, hS1, heps]
  · nlinarith [hmul, hd, hS1, heps]

/-- Witness for the attention-weight normalization theorem: two encoder
timesteps, one example, unit feature projections, constant exponential. -/
theorem attention_weights_sum_to_one_witness :
    |(colD 0 (GRUCellAttn_weights (fun _ => 1) 1
      [[[1]], [[1]]] [[1]]) 0).sum - 1| ≤ attnEps :=
  attention_weights_sum_to_one (fun _ => 1) 1 [[[1]], [[1]]] [[1]]
    (by decide) (by decide) (by decide) (fun x => by norm_num) (by norm_num)
    0 (by norm_num)

/-! ### Bidirectional layer combination (source lines 175-191)

`output_bw` is reversed with `tf.reverse_sequence(..., seq_dim=0, batch_dim=1)`
using the per-example valid lengths, then added elementwise to `output_fw`.
The two recurrent passes themselves are black boxes; their output tensors are
the inputs here. -/

theorem getD_colD {α : Type} (d : α) (m : Mat α) (b t : ℕ) :
    (colD d m b).getD t d = entry d m t b := by
  unfold colD entry
  by_cases ht : t < m.length
  · rw [List.getD_eq_getElem _ _ (by simpa using ht), List.getElem_map,
      List.getD_eq_getElem _ _ ht]
  · rw [List.getD_eq_default _ _ (by simpa using le_of_not_lt ht),
      List.getD_eq_default _ _ (le_of_not_lt ht)]
    simp [List.getD]

theorem length_transposeD {α : Type} (d : α) (N : ℕ) (m : Mat α) :
    (transposeD d N m).length = N := by
  simp [transposeD]

theorem row_length_transposeD {α : Type} (d : α) (N : ℕ) (m : Mat α) :
    ∀ row ∈ transposeD d N m, row.length = m.length := by
  intro row hrow
  obtain ⟨b, _, hrw⟩ := List.mem_map.mp hrow
  rw [← hrw]; simp

theorem getD_transposeD {α : Type} (d : α) (N : ℕ) (m : Mat α) (i : ℕ) (hi : i < N) :
    (transposeD d N m).getD i [] = m.map (fun row => row.getD i d) := by
  rw [transposeD]
  exact getD_range_map [] _ N i hi

theorem entry_transposeD {α : Type} (d : α) (N : ℕ) (m : Mat α) (i j : ℕ)
    (hi : i < N) :
    entry d (transposeD d N m) i j = entry d m j i := by
  unfold entry
  rw [getD_transposeD d N m i hi]
  by_cases hj : j < m.length
  · rw [List.getD_eq_getElem _ _ (by simpa using hj), List.getElem_map,
      List.getD_eq_getElem _ _ hj]
  · rw [List.getD_eq_default _ _ (by simpa using le_of_not_lt hj),
      List.getD_eq_default _ _ (le_of_not_lt hj)]
    simp [List.getD]

theorem getD_zipWith {α β γ : Type} (f : α → β → γ) (l₁ : List α) (l₂ : List β)
    (i : ℕ) (d₁ : α) (d₂ : β) (d₃ : γ) (h₁ : i < l₁.length) (h₂ : i < l₂.length) :
    (List.zipWith f l₁ l₂).getD i d₃ = f (l₁.getD i d₁) (l₂.getD i d₂) := by
  have hz : i < (List.zipWith f l₁ l₂).length := by rw [List.length_zipWith]; omega
  rw [List.getD_eq_getElem _ _ hz, List.getElem_zipWith,
    List.getD_eq_getElem _ _ h₁, List.getD_eq_getElem _ _ h₂]

/-- Model of `tf.reverse_sequence(output_bw, lengths, seq_dim=0, batch_dim=1)`
(source line 186): per example, the first `lengths[b]` timesteps are
reversed; later (padding) timesteps stay where they were emitted. -/
def reverse_sequence {α : Type} (d : α) (B : ℕ) (lengths : List ℕ) (m : Mat α) :
    Mat α :=
  transposeD d m.length
    (List.zipWith (fun n col => (col.take n).reverse ++ col.drop n) lengths
      (transposeD d B m))

def vecAdd (u v : List ℚ) : List ℚ := List.zipWith (· + ·) u v

/-- Model of `outputs = output_fw + output_bw` after the reversal (source
lines 186-188), at feature-vector granularity. -/
def bidirectional_rnn (B : ℕ) (lengths : List ℕ)
    (output_fw output_bw : Mat (List ℚ)) : Mat (List ℚ) :=
  List.zipWith (fun r₁ r₂ => List.zipWith vecAdd r₁ r₂) output_fw
    (reverse_sequence [] B lengths output_bw)

theorem getD_reversed_col {α : Type} (d : α) (col : List α) (n t : ℕ)
    (hn : n ≤ col.length) (ht : t < col.length) :
    ((col.take n).reverse ++ col.drop n).getD t d
      = if t < n then col.getD (n - 1 - t) d else col.getD t d := by
  have htake : (col.take n).length = n := by simp [List.length_take]; omega
  by_cases hlt : t < n
  · have h1 : t < ((col.take n).reverse).length := by simpa [htake]
    have h2 : t < ((col.take n).reverse ++ col.drop n).length := by
      simp only [List.length_append]; omega
    rw [List.getD_eq_getElem _ _ h2, List.getElem_append_left h1,
      List.getElem_reverse, List.getElem_take]
    rw [if_pos hlt, List.getD_eq_getElem _ _ (by omega : n - 1 - t < col.length)]
    congr 1
    omega
  · have h2 : t < ((col.take n).reverse ++ col.drop n).length := by
      simp only [List.length_append, List.length_reverse, htake, List.length_drop]
      omega
    rw [List.getD_eq_getElem _ _ h2, List.getElem_append_right (by simpa [htake] using hlt),
      List.getElem_drop]
    rw [if_neg hlt, List.getD_eq_getElem _ _ ht]
    congr 1
    simp only [List.length_reverse, htake]
    omega

/-- C5: the bidirectional layer output is the elementwise sum of the forward
hidden sequence and the backward hidden sequence reversed per example over
that example's valid length; positions at or beyond the valid length take the
backward output where it was emitted. -/
theorem bidirectional_output_characterization (B T : ℕ) (lengths : List ℕ)
    (fw bw : Mat (List ℚ))
    (hfwlen : fw.length = T) (hbwlen : bw.length = T)
    (hfw : ∀ row ∈ fw, row.length = B) (hbw : ∀ row ∈ bw, row.length = B)
    (hlen : lengths.length = B) (hbound : ∀ n ∈ lengths, n ≤ T) :
    ∀ t < T, ∀ b < B,
      entry [] (bidirectional_rnn B lengths fw bw) t b
        = if t < lengths.getD b 0
          then vecAdd (entry [] fw t b) (entry [] bw (lengths.getD b 0 - 1 - t) b)
          else vecAdd (entry [] fw t b) (entry [] bw t b) := by
  intro t ht b hb
  set n := lengths.getD b 0 with hn
  have hnmem : n ∈ lengths := by
    rw [hn]; rw [List.getD_eq_getElem _ _ (by omega : b < lengths.length)]
    exact List.getElem_mem _
  have hnle : n ≤ T := hbound n hnmem
  set rs := reverse_sequence ([] : List ℚ) B lengths bw with hrs
  have hrslen : rs.length = T := by
    rw [hrs, reverse_sequence, length_transposeD, hbwlen]
  -- the inner (batch-major) matrix of reversed columns
  set zipped := List.zipWith (fun n col => (col.take n).reverse ++ col.drop n)
    lengths (transposeD ([] : List ℚ) B bw) with hzip
  have hrow : ∀ b' < B, zipped.getD b' [] =
      ((colD [] bw b').take (lengths.getD b' 0)).reverse
        ++ (colD [] bw b').drop (lengths.getD b' 0) := by
    intro b' hb'
    rw [hzip,
      getD_zipWith _ lengths (transposeD ([] : List ℚ) B bw) b' 0 [] []
        (by omega) (by rw [length_transposeD]; omega),
      getD_transposeD _ _ _ _ hb']
    rfl
  -- entry of the reversed tensor
  have hrsentry : entry [] rs t b
      = if t < n then entry [] bw (n - 1 - t) b else entry [] bw t b := by
    rw [hrs, reverse_sequence]
    rw [entry_transposeD _ _ _ t b (by rw [hbwlen]; exact ht)]
    show entry [] zipped b t = _
    unfold entry
    rw [hrow b hb]
    have hcollen : (colD ([] : List ℚ) bw b).length = T := by simp [colD, hbwlen]
    rw [getD_reversed_col [] (colD [] bw b) n t (by omega) (by omega)]
    by_cases hlt : t < n
    · rw [if_pos hlt, if_pos hlt, getD_colD]
      rfl
    · rw [if_neg hlt, if_neg hlt, getD_colD]
      rfl
  -- entry of the summed tensor
  have hfwrow : (fw.getD t []).length = B := by
    have hmem : fw.getD t [] ∈ fw := by
      rw [List.getD_eq_getElem _ _ (by omega : t < fw.length)]
      exact List.getElem_mem _
    exact hfw _ hmem
  have hzlen : zipped.length = B := by
    rw [hzip, List.length_zipWith, length_transposeD, hlen, min_self]
  have hrsrow : (rs.getD t []).length = B := by
    have hrseq : rs = transposeD ([] : List ℚ) bw.length zipped := by
      rw [hrs]; rfl
    have hmem : rs.getD t [] ∈ transposeD ([] : List ℚ) bw.length zipped := by
      have hmem0 : rs.getD t [] ∈ rs := by
        rw [List.getD_eq_getElem _ _ (by omega : t < rs.length)]
        exact List.getElem_mem _
      exact hrseq ▸ hmem0
    exact (row_length_transposeD ([] : List ℚ) bw.length zipped _ hmem).trans hzlen
  show (List.zipWith (fun r₁ r₂ => List.zipWith vecAdd r₁ r₂) fw rs |>.getD t []).getD b [] = _
  rw [getD_zipWith (fun r₁ r₂ => List.zipWith vecAdd r₁ r₂) fw rs t [] [] []
    (by omega) (by omega)]
  rw [getD_zipWith vecAdd (fw.getD t []) (rs.getD t []) b [] [] []
    (by omega) (by omega)]
  have hfold : (rs.getD t []).getD b ([] : List ℚ) = entry [] rs t b := rfl
  rw [hfold, hrsentry]
  split_ifs with hlt
  · rfl
  · rfl

/-- Witness for the bidirectional-combination theorem: one example of valid
length 2 over two timesteps. -/
theorem bidirectional_output_characterization_witness :
    entry [] (bidirectional_rnn 1 [2]
        ([[[1]], [[2]]] : Mat (List ℚ)) ([[[10]], [[20]]] : Mat (List ℚ))) 0 0
      = if 0 < ([2] : List ℕ).getD 0 0
        then vecAdd (entry [] ([[[1]], [[2]]] : Mat (List ℚ)) 0 0)
          (entry [] ([[[10]], [[20]]] : Mat (List ℚ)) (([2] : List ℕ).getD 0 0 - 1 - 0) 0)
        else vecAdd (entry [] ([[[1]], [[2]]] : Mat (List ℚ)) 0 0)
          (entry [] ([[[10]], [[20]]] : Mat (List ℚ)) 0 0) :=
  bidirectional_output_characterization 1 2 [2] _ _ (by decide) (by decide)
    (by decide) (by decide) (by decide) (by decide) 0 (by norm_num) 0 (by norm_num)

/-! ### Downscale (source lines 158-173)

`downscale` transposes to batch-major, reshapes so that adjacent timestep
pairs fuse (`[-1, 2*size]` on the data, `[-1, 2]` on the mask), applies the
affine projection and `tanh` on the data and a pairwise logical OR on the
mask, then reshapes back (`[batch_size, -1]`) and transposes to time-major.
`tf.reshape` fails when the total element count does not divide; reshapes are
therefore modelled in `Option`. -/

/-- Model of `tf.reshape(x, [-1, 2])` on a flattened tensor: group the
elements into adjacent pairs, failing on an odd element count. -/
def chunkPairs {α : Type} : List α → Option (List (α × α))
  | [] => some []
  | [_] => none
  | a :: b :: rest => (chunkPairs rest).map (fun l => (a, b) :: l)

/-- Split a flat list into `r` rows of `k` elements, failing unless the
length is exactly `r * k`. -/
def unflatten {α : Type} : ℕ → ℕ → List α → Option (List (List α))
  | 0, _, l => if l.isEmpty then some [] else none
  | r + 1, k, l =>
      if k ≤ l.length then (unflatten r k (l.drop k)).map (fun rows => l.take k :: rows)
      else none

/-- Model of `tf.reshape(x, [B, -1])`. -/
def reshapeRows {α : Type} (B : ℕ) (l : List α) : Option (List (List α)) :=
  if B ∣ l.length ∧ B ≠ 0 then unflatten B (l.length / B) l else none

/-- Model of `tf.reshape(x, [-1, k])`. -/
def reshapeCols {α : Type} (k : ℕ) (l : List α) : Option (List (List α)) :=
  if k ∣ l.length ∧ k ≠ 0 then unflatten (l.length / k) k l else none

/-- Model of the mask half of `downscale` (source lines 166-172): transpose,
reshape `[-1, 2]`, reduce-any each pair, reshape `[batch_size, -1]`,
transpose back. -/
def downscaleMask (B : ℕ) (mask : Mat ℕ) : Option (Mat ℕ) :=
  (chunkPairs (transposeD 0 B mask).flatten).bind (fun pairs =>
    (reshapeRows B (pairs.map (fun p => if p.1 ≠ 0 ∨ p.2 ≠ 0 then 1 else 0))).map
      (fun m2 => transposeD 0 ((pairs.map
        (fun p => if p.1 ≠ 0 ∨ p.2 ≠ 0 then 1 else 0)).length / B) m2))

/-- Model of `tf.reshape(tf.transpose(inp, perm=[1,0,2]), [-1, 2*size])`
(source line 160): the rows that the affine projection is applied to. -/
def downscalePairs (size B : ℕ) (inp : Mat (List ℚ)) : Option (List (List ℚ)) :=
  reshapeCols (2 * size) ((transposeD [] B inp).flatten.flatten)

/-- Model of the data half of `downscale` (source lines 160-164): pair
adjacent timesteps, apply the affine projection `lin`, reshape back to
`[batch_size, -1, size]`, transpose to time-major, apply `tanh` (`th`). -/
def downscaleData (size B : ℕ) (lin : List ℚ → List ℚ) (th : ℚ → ℚ)
    (inp : Mat (List ℚ)) : Option (Mat (List ℚ)) :=
  (downscalePairs size B inp).bind (fun inp2d =>
    (reshapeRows B (inp2d.map lin)).map (fun out3dT =>
      (transposeD [] ((inp2d.map lin).length / B) out3dT).map
        (fun row => row.map (fun v => v.map th))))

/-- Model of `NLCModel.downscale` (source lines 158-173). -/
def downscale (size B : ℕ) (lin : List ℚ → List ℚ) (th : ℚ → ℚ)
    (inp : Mat (List ℚ)) (mask : Mat ℕ) : Option (Mat (List ℚ) × Mat ℕ) :=
  (downscaleData size B lin th inp).bind (fun out =>
    (downscaleMask B mask).map (fun m => (out, m)))

theorem chunkPairs_length {α : Type} (l : List α) (p : List (α × α))
    (h : chunkPairs l = some p) : l.length = 2 * p.length := by
  induction l using chunkPairs.induct generalizing p with
  | case1 =>
      simp only [chunkPairs, Option.some.injEq] at h
      simp [← h]
  | case2 a => simp [chunkPairs] at h
  | case3 a b rest ih =>
      simp only [chunkPairs, Option.map_eq_some'] at h
      obtain ⟨p', hp', hrw⟩ := h
      have := ih p' hp'
      rw [← hrw]
      simp only [List.length_cons]
      omega

theorem chunkPairs_isSome_of_even {α : Type} (l : List α) (h : Even l.length) :
    ∃ p, chunkPairs l = some p := by
  induction l using chunkPairs.induct with
  | case1 => exact ⟨[], rfl⟩
  | case2 a => simp at h
  | case3 a b rest ih =>
      have : Even rest.length := by
        simp only [List.length_cons] at h
        rcases h with ⟨m, hm⟩
        exact ⟨m - 1, by omega⟩
      obtain ⟨p, hp⟩ := ih this
      exact ⟨(a, b) :: p, by simp [chunkPairs, hp]⟩

theorem chunkPairs_getD {α : Type} (l : List α) (p : List (α × α)) (d : α)
    (h : chunkPairs l = some p) :
    ∀ j < p.length, p.getD j (d, d) = (l.getD (2 * j) d, l.getD (2 * j + 1) d) := by
  induction l using chunkPairs.induct generalizing p with
  | case1 =>
      simp only [chunkPairs, Option.some.injEq] at h
      simp [← h]
  | case2 a => simp [chunkPairs] at h
  | case3 a b rest ih =>
      simp only [chunkPairs, Option.map_eq_some'] at h
      obtain ⟨p', hp', hrw⟩ := h
      intro j hj
      rw [← hrw]
      cases j with
      | zero => rfl
      | succ j =>
          have hj' : j < p'.length := by rw [← hrw] at hj; simp at hj; omega
          have := ih p' hp' j hj'
          simpa [List.getD_cons_succ, Nat.mul_succ] using this

theorem unflatten_length {α : Type} (r k : ℕ) (l : List α) (rows : List (List α))
    (h : unflatten r k l = some rows) : l.length = r * k ∧ rows.length = r := by
  induction r generalizing l rows with
  | zero =>
      simp only [unflatten] at h
      by_cases he : l.isEmpty
      · rw [if_pos he, Option.some.injEq] at h
        simp [List.isEmpty_iff.mp he, ← h]
      · rw [if_neg he] at h; exact absurd h (by simp)
  | succ r ih =>
      simp only [unflatten] at h
      by_cases hk : k ≤ l.length
      · rw [if_pos hk, Option.map_eq_some'] at h
        obtain ⟨rows', hrows', hrw⟩ := h
        obtain ⟨hlen, hrlen⟩ := ih (l.drop k) rows' hrows'
        simp only [List.length_drop] at hlen
        constructor
        · rw [Nat.succ_mul]; omega
        · rw [← hrw]; simp [hrlen]
      · rw [if_neg hk] at h; exact absurd h (by simp)

theorem unflatten_isSome {α : Type} (r k : ℕ) (l : List α) (h : l.length = r * k) :
    ∃ rows, unflatten r k l = some rows := by
  induction r generalizing l with
  | zero =>
      refine ⟨[], ?_⟩
      have : l.isEmpty := by
        rw [List.isEmpty_iff, ← List.length_eq_zero]
        omega
      simp [unflatten, this]
  | succ r ih =>
      have hk : k ≤ l.length := by
        rw [h, Nat.succ_mul]; omega
      have hdrop : (l.drop k).length = r * k := by
        rw [List.length_drop, h, Nat.succ_mul]
        omega
      obtain ⟨rows, hrows⟩ := ih (l.drop k) hdrop
      exact ⟨l.take k :: rows, by simp [unflatten, hk, hrows]⟩

theorem getD_drop {α : Type} (l : List α) (a i : ℕ) (d : α) :
    (l.drop a).getD i d = l.getD (a + i) d := by
  by_cases h : a + i < l.length
  · have h1 : i < (l.drop a).length := by simp [List.length_drop]; omega
    rw [List.getD_eq_getElem _ _ h1, List.getElem_drop, List.getD_eq_getElem _ _ h]
  · have h1 : (l.drop a).length ≤ i := by simp [List.length_drop]; omega
    rw [List.getD_eq_default _ _ h1, List.getD_eq_default _ _ (by omega)]

theorem getD_take {α : Type} (l : List α) (k i : ℕ) (d : α) (h : i < k) :
    (l.take k).getD i d = l.getD i d := by
  by_cases hl : i < l.length
  · have h1 : i < (l.take k).length := by simp [List.length_take]; omega
    rw [List.getD_eq_getElem _ _ h1, List.getElem_take, List.getD_eq_getElem _ _ hl]
  · have h1 : (l.take k).length ≤ i := by simp [List.length_take]; omega
    rw [List.getD_eq_default _ _ h1, List.getD_eq_default _ _ (by omega)]

theorem unflatten_entry {α : Type} (r k : ℕ) (l : List α) (rows : List (List α))
    (d : α) (h : unflatten r k l = some rows) :
    ∀ i < r, ∀ j < k, entry d rows i j = l.getD (i * k + j) d := by
  induction r generalizing l rows with
  | zero => intro i hi; omega
  | succ r ih =>
      simp only [unflatten] at h
      by_cases hk : k ≤ l.length
      · rw [if_pos hk, Option.map_eq_some'] at h
        obtain ⟨rows', hrows', hrw⟩ := h
        intro i hi j hj
        rw [← hrw]
        cases i with
        | zero =>
            show (l.take k).getD j d = l.getD (0 * k + j) d
            rw [getD_take _ _ _ _ hj, Nat.zero_mul, Nat.zero_add]
        | succ i =>
            have hi' : i < r := by omega
            have := ih (l.drop k) rows' hrows' i hi' j hj
            have hcons : entry d (l.take k :: rows') (i + 1) j = entry d rows' i j := rfl
            rw [hcons, this, getD_drop]
            congr 1
            ring
      · rw [if_neg hk] at h; exact absurd h (by simp)

theorem sum_map_const_length {α : Type} (l : List (List α)) (c : ℕ)
    (h : ∀ x ∈ l, x.length = c) : (l.map List.length).sum = l.length * c := by
  induction l with
  | nil => simp
  | cons x xs ih =>
      have hx : x.length = c := h x (by simp)
      have := ih (fun y hy => h y (by simp [hy]))
      simp [hx, this, Nat.succ_mul]
      omega

theorem length_flatten_const {α : Type} (l : List (List α)) (c : ℕ)
    (h : ∀ x ∈ l, x.length = c) : l.flatten.length = l.length * c := by
  rw [List.length_flatten]
  exact sum_map_const_length l c h

theorem getD_flatten_const {α : Type} (rows : List (List α)) (k : ℕ) (d : α)
    (h : ∀ x ∈ rows, x.length = k) :
    ∀ i < rows.length, ∀ j < k, rows.flatten.getD (i * k + j) d = entry d rows i j := by
  induction rows with
  | nil => intro i hi; exact absurd hi (by simp)
  | cons row rest ih =>
      have hrow : row.length = k := h row (by simp)
      intro i hi j hj
      cases i with
      | zero =>
          show (row ++ rest.flatten).getD (0 * k + j) d = row.getD j d
          have hjlt : j < row.length := by omega
          rw [Nat.zero_mul, Nat.zero_add, List.getD_append _ _ _ _ hjlt]
      | succ i =>
          have hstep := ih (fun y hy => h y (by simp [hy])) i (by simpa using hi) j hj
          have hcons : entry d (row :: rest) (i + 1) j = entry d rest i j := rfl
          rw [hcons, ← hstep]
          show (row ++ rest.flatten).getD ((i + 1) * k + j) d = _
          have hge : row.length ≤ (i + 1) * k + j := by
            rw [hrow]
            calc k ≤ (i + 1) * k := Nat.le_mul_of_pos_left k (by omega)
              _ ≤ (i + 1) * k + j := by omega
          rw [List.getD_append_right _ _ _ _ hge]
          congr 1
          rw [hrow, Nat.succ_mul]
          omega

theorem unflatten_row {α : Type} (r k : ℕ) (l : List α) (rows : List (List α))
    (h : unflatten r k l = some rows) :
    ∀ i < r, rows.getD i [] = (l.drop (i * k)).take k := by
  induction r generalizing l rows with
  | zero => intro i hi; omega
  | succ r ih =>
      simp only [unflatten] at h
      by_cases hk : k ≤ l.length
      · rw [if_pos hk, Option.map_eq_some'] at h
        obtain ⟨rows', hrows', hrw⟩ := h
        intro i hi
        rw [← hrw]
        cases i with
        | zero => simp
        | succ i =>
            have := ih (l.drop k) rows' hrows' i (by omega)
            rw [List.getD_cons_succ, this, List.drop_drop]
            congr 2
            rw [Nat.succ_mul]
            omega
      · rw [if_neg hk] at h; exact absurd h (by simp)

theorem drop_flatten_const {α : Type} (vs : List (List α)) (s : ℕ)
    (h : ∀ v ∈ vs, v.length = s) (i : ℕ) :
    vs.flatten.drop (i * s) = (vs.drop i).flatten := by
  induction vs generalizing i with
  | nil => simp
  | cons v rest ih =>
      cases i with
      | zero => simp
      | succ i =>
          have hv : v.length = s := h v (by simp)
          have hrest := ih (fun y hy => h y (by simp [hy])) i
          show (v ++ rest.flatten).drop ((i + 1) * s) = (rest.drop i).flatten
          have hidx : (i + 1) * s = v.length + i * s := by rw [hv, Nat.succ_mul]; omega
          rw [hidx, List.drop_append, hrest]

theorem take_two_flatten_const {α : Type} (vs : List (List α)) (s : ℕ)
    (h : ∀ v ∈ vs, v.length = s) (i : ℕ) (hi : i + 1 < vs.length) :
    ((vs.drop i).flatten).take (2 * s) = vs.getD i [] ++ vs.getD (i + 1) [] := by
  have hdrop1 : vs.drop i = vs[i] :: vs.drop (i + 1) :=
    List.drop_eq_getElem_cons (by omega)
  have hdrop2 : vs.drop (i + 1) = vs[i + 1] :: vs.drop (i + 2) :=
    List.drop_eq_getElem_cons hi
  have hvi : vs[i].length = s := h _ (List.getElem_mem _)
  have hvi1 : vs[i + 1].length = s := h _ (List.getElem_mem _)
  rw [hdrop1, hdrop2]
  show (vs[i] ++ (vs[i+1] ++ (vs.drop (i+2)).flatten)).take (2 * s)
      = vs.getD i [] ++ vs.getD (i + 1) []
  have hidx : 2 * s = vs[i].length + s := by rw [hvi]; omega
  rw [hidx, List.take_append, ← hvi1, List.take_left]
  rw [List.getD_eq_getElem _ _ (by omega : i < vs.length),
    List.getD_eq_getElem _ _ hi]

/-- Shape and content of the mask half of downscale: for even time dimension
`2 * T'`, it succeeds, halves the time dimension and ORs adjacent pairs. -/
theorem downscaleMask_spec (B T' : ℕ) (mask : Mat ℕ)
    (hB : B ≠ 0) (hmlen : mask.length = 2 * T')
    (hmrow : ∀ row ∈ mask, row.length = B) :
    ∃ omask, downscaleMask B mask = some omask
      ∧ omask.length = T'
      ∧ (∀ row ∈ omask, row.length = B)
      ∧ ∀ j < T', ∀ b < B,
          entry 0 omask j b
            = if entry 0 mask (2 * j) b ≠ 0 ∨ entry 0 mask (2 * j + 1) b ≠ 0
              then 1 else 0 := by
  set tm := transposeD 0 B mask with htm
  have htmlen : tm.length = B := length_transposeD 0 B mask
  have htmrow : ∀ row ∈ tm, row.length = 2 * T' := by
    intro row hrow
    rw [row_length_transposeD 0 B mask row hrow, hmlen]
  set flat := tm.flatten with hflat
  have hflatlen : flat.length = B * (2 * T') := by
    rw [hflat, length_flatten_const tm (2 * T') htmrow, htmlen]
  have heven : Even flat.length := ⟨B * T', by rw [hflatlen]; ring⟩
  obtain ⟨p, hp⟩ := chunkPairs_isSome_of_even flat heven
  have hplen : p.length = B * T' := by
    have h2 := chunkPairs_length flat p hp
    have h3 : B * (2 * T') = 2 * (B * T') := by ring
    omega
  set pooled := p.map (fun q => if q.1 ≠ 0 ∨ q.2 ≠ 0 then 1 else 0) with hpooled
  have hpooledlen : pooled.length = B * T' := by simp [hpooled, hplen]
  have hdvd : B ∣ pooled.length := ⟨T', hpooledlen⟩
  have hquot : pooled.length / B = T' := by
    rw [hpooledlen, Nat.mul_div_cancel_left _ (Nat.pos_of_ne_zero hB)]
  obtain ⟨m2, hm2⟩ := unflatten_isSome B T' pooled (by rw [hpooledlen])
  have hrr : reshapeRows B pooled = some m2 := by
    rw [reshapeRows, if_pos ⟨hdvd, hB⟩, hquot]
    exact hm2
  refine ⟨transposeD 0 (pooled.length / B) m2, ?_, ?_, ?_, ?_⟩
  · show downscaleMask B mask = some (transposeD 0 (pooled.length / B) m2)
    simp only [downscaleMask, ← htm, ← hflat, hp, Option.some_bind, ← hpooled,
      hrr, Option.map_some']
  · rw [hquot, length_transposeD]
  · intro row hrow
    rw [row_length_transposeD _ _ _ _ hrow]
    exact (unflatten_length B T' pooled m2 hm2).2
  · intro j hj b hb
    have hm2len : m2.length = B := (unflatten_length B T' pooled m2 hm2).2
    have hidxp : b * T' + j < p.length := by
      rw [hplen]
      calc b * T' + j < b * T' + T' := by omega
        _ = (b + 1) * T' := by ring
        _ ≤ B * T' := Nat.mul_le_mul_right T' (by omega)
    have hent : entry 0 (transposeD 0 (pooled.length / B) m2) j b = entry 0 m2 b j :=
      entry_transposeD 0 _ m2 j b (by rw [hquot]; exact hj)
    rw [hent, unflatten_entry B T' pooled m2 0 hm2 b hb j hj]
    have hpool : pooled.getD (b * T' + j) 0
        = (fun q : ℕ × ℕ => if q.1 ≠ 0 ∨ q.2 ≠ 0 then 1 else 0) (p.getD (b * T' + j) (0, 0)) := by
      rw [hpooled,
        List.getD_eq_getElem _ _ (by simpa using hidxp),
        List.getElem_map,
        List.getD_eq_getElem _ _ hidxp]
    rw [hpool, chunkPairs_getD flat p 0 hp _ hidxp]
    have he1 : flat.getD (2 * (b * T' + j)) 0 = entry 0 mask (2 * j) b := by
      have hidx : 2 * (b * T' + j) = b * (2 * T') + 2 * j := by ring
      rw [hidx, hflat, getD_flatten_const tm (2 * T') 0 htmrow b (by omega) (2 * j) (by omega)]
      exact entry_transposeD 0 B mask b (2 * j) hb
    have he2 : flat.getD (2 * (b * T' + j) + 1) 0 = entry 0 mask (2 * j + 1) b := by
      have hidx : 2 * (b * T' + j) + 1 = b * (2 * T') + (2 * j + 1) := by ring
      rw [hidx, hflat, getD_flatten_const tm (2 * T') 0 htmrow b (by omega) (2 * j + 1) (by omega)]
      exact entry_transposeD 0 B mask b (2 * j + 1) hb
    rw [show ((fun q : ℕ × ℕ => if q.1 ≠ 0 ∨ q.2 ≠ 0 then 1 else 0)
        (flat.getD (2 * (b * T' + j)) 0, flat.getD (2 * (b * T' + j) + 1) 0))
        = if flat.getD (2 * (b * T' + j)) 0 ≠ 0 ∨ flat.getD (2 * (b * T' + j) + 1) 0 ≠ 0
          then 1 else 0 from rfl]
    rw [he1, he2]

/-- For an odd time dimension the mask reshape chain of downscale fails. -/
theorem downscaleMask_odd (B T : ℕ) (mask : Mat ℕ)
    (hB : B ≠ 0) (hmlen : mask.length = T) (hodd : Odd T) :
    downscaleMask B mask = none := by
  set tm := transposeD 0 B mask with htm
  have htmlen : tm.length = B := length_transposeD 0 B mask
  have htmrow : ∀ row ∈ tm, row.length = T := by
    intro row hrow
    rw [row_length_transposeD 0 B mask row hrow, hmlen]
  set flat := tm.flatten with hflat
  have hflatlen : flat.length = B * T := by
    rw [hflat, length_flatten_const tm T htmrow, htmlen]
  cases hcp : chunkPairs flat with
  | none =>
      simp only [downscaleMask, ← htm, ← hflat, hcp, Option.none_bind]
  | some p =>
      have hplen : flat.length = 2 * p.length := chunkPairs_length flat p hcp
      set pooled := p.map (fun q : ℕ × ℕ => if q.1 ≠ 0 ∨ q.2 ≠ 0 then 1 else 0) with hpooled
      have hpooledlen : pooled.length = p.length := by simp [hpooled]
      have hndvd : ¬ B ∣ pooled.length := by
        rintro ⟨c, hc⟩
        rw [hpooledlen] at hc
        have : B * T = B * (2 * c) := by
          rw [hflatlen] at hplen
          rw [hplen, hc]; ring
        have hT : T = 2 * c := Nat.eq_of_mul_eq_mul_left (Nat.pos_of_ne_zero hB) this
        rcases hodd with ⟨m, hm⟩
        omega
      have hrr : reshapeRows B pooled = none := by
        rw [reshapeRows, if_neg]
        rintro ⟨hdvd, -⟩
        exact hndvd hdvd
      simp only [downscaleMask, ← htm, ← hflat, hcp, Option.some_bind, ← hpooled,
        hrr, Option.map_none']

/-- Shape and content of the `[-1, 2*size]` reshape feeding the downscale
projection: row `b * T' + j` is the concatenation of the feature vectors of
timesteps `2j` and `2j+1` of batch example `b`. -/
theorem downscalePairs_spec (size B T' : ℕ) (inp : Mat (List ℚ))
    (hB : B ≠ 0) (hs : size ≠ 0) (hilen : inp.length = 2 * T')
    (hirow : ∀ row ∈ inp, row.length = B)
    (hvecs : ∀ row ∈ inp, ∀ v ∈ row, v.length = size) :
    ∃ inp2d, downscalePairs size B inp = some inp2d
      ∧ inp2d.length = B * T'
      ∧ ∀ b < B, ∀ j < T',
          inp2d.getD (b * T' + j) []
            = entry [] inp (2 * j) b ++ entry [] inp (2 * j + 1) b := by
  set tm := transposeD ([] : List ℚ) B inp with htm
  have htmlen : tm.length = B := length_transposeD _ B inp
  have htmrow : ∀ row ∈ tm, row.length = 2 * T' := by
    intro row hrow
    rw [row_length_transposeD _ B inp row hrow, hilen]
  have hvs : ∀ v ∈ tm.flatten, v.length = size := by
    intro v hv
    obtain ⟨row, hrowmem, hvrow⟩ := List.mem_flatten.mp hv
    rw [htm, transposeD] at hrowmem
    obtain ⟨b, hbmem, hrw⟩ := List.mem_map.mp hrowmem
    rw [← hrw] at hvrow
    obtain ⟨r, hr, hvr⟩ := List.mem_map.mp hvrow
    have hblt : b < r.length := by
      rw [hirow r hr]
      exact List.mem_range.mp hbmem
    rw [← hvr, List.getD_eq_getElem _ _ hblt]
    exact hvecs r hr _ (List.getElem_mem _)
  set vs := tm.flatten with hvsdef
  have hvslen : vs.length = B * (2 * T') := by
    rw [hvsdef, length_flatten_const tm (2 * T') htmrow, htmlen]
  set flat := vs.flatten with hflatdef
  have hflatlen : flat.length = 2 * size * (B * T') := by
    rw [hflatdef, length_flatten_const vs size hvs, hvslen]
    ring
  have h2s : 2 * size ≠ 0 := by omega
  have hdvd : (2 * size) ∣ flat.length := ⟨B * T', hflatlen⟩
  have hquot : flat.length / (2 * size) = B * T' := by
    rw [hflatlen, Nat.mul_div_cancel_left _ (Nat.pos_of_ne_zero h2s)]
  obtain ⟨inp2d, hun⟩ := unflatten_isSome (B * T') (2 * size) flat
    (by rw [hflatlen]; ring)
  have hrc : reshapeCols (2 * size) flat = some inp2d := by
    rw [reshapeCols, if_pos ⟨hdvd, h2s⟩, hquot]
    exact hun
  refine ⟨inp2d, ?_, (unflatten_length _ _ _ _ hun).2, ?_⟩
  · show downscalePairs size B inp = some inp2d
    simp only [downscalePairs, ← htm, ← hvsdef, ← hflatdef]
    exact hrc
  · intro b hb j hj
    have hidxp : b * T' + j < B * T' := by
      calc b * T' + j < b * T' + T' := by omega
        _ = (b + 1) * T' := by ring
        _ ≤ B * T' := Nat.mul_le_mul_right T' (by omega)
    rw [unflatten_row (B * T') (2 * size) flat inp2d hun _ hidxp]
    have hidx : (b * T' + j) * (2 * size) = (b * (2 * T') + 2 * j) * size := by ring
    rw [hidx, hflatdef, drop_flatten_const vs size hvs]
    have hi1 : b * (2 * T') + 2 * j + 1 < vs.length := by
      rw [hvslen]
      calc b * (2 * T') + 2 * j + 1 < b * (2 * T') + 2 * T' := by omega
        _ = (b + 1) * (2 * T') := by ring
        _ ≤ B * (2 * T') := Nat.mul_le_mul_right _ (by omega)
    rw [take_two_flatten_const vs size hvs _ hi1]
    have he1 : vs.getD (b * (2 * T') + 2 * j) [] = entry [] inp (2 * j) b := by
      rw [hvsdef, getD_flatten_const tm (2 * T') [] htmrow b (by omega) (2 * j) (by omega)]
      exact entry_transposeD _ B inp b (2 * j) hb
    have he2 : vs.getD (b * (2 * T') + 2 * j + 1) [] = entry [] inp (2 * j + 1) b := by
      have : b * (2 * T') + 2 * j + 1 = b * (2 * T') + (2 * j + 1) := by ring
      rw [hvsdef, this,
        getD_flatten_const tm (2 * T') [] htmrow b (by omega) (2 * j + 1) (by omega)]
      exact entry_transposeD _ B inp b (2 * j + 1) hb
    rw [he1, he2]

/-- Shape of the data half of downscale: for time dimension `2 * T'` it
succeeds and produces a tensor of time dimension `T'`. -/
theorem downscaleData_spec (size B T' : ℕ) (lin : List ℚ → List ℚ) (th : ℚ → ℚ)
    (inp : Mat (List ℚ))
    (hB : B ≠ 0) (hs : size ≠ 0) (hilen : inp.length = 2 * T')
    (hirow : ∀ row ∈ inp, row.length = B)
    (hvecs : ∀ row ∈ inp, ∀ v ∈ row, v.length = size) :
    ∃ out, downscaleData size B lin th inp = some out ∧ out.length = T' := by
  obtain ⟨inp2d, hdp, hlen2d, -⟩ :=
    downscalePairs_spec size B T' inp hB hs hilen hirow hvecs
  set out2d := inp2d.map lin with hout2d
  have hlenout : out2d.length = B * T' := by simp [hout2d, hlen2d]
  have hdvd : B ∣ out2d.length := ⟨T', hlenout⟩
  have hquot : out2d.length / B = T' := by
    rw [hlenout, Nat.mul_div_cancel_left _ (Nat.pos_of_ne_zero hB)]
  obtain ⟨out3dT, hun⟩ := unflatten_isSome B T' out2d (by rw [hlenout])
  have hrr : reshapeRows B out2d = some out3dT := by
    rw [reshapeRows, if_pos ⟨hdvd, hB⟩, hquot]
    exact hun
  refine ⟨(transposeD [] (out2d.length / B) out3dT).map
    (fun row => row.map (fun v => v.map th)), ?_, ?_⟩
  · show downscaleData size B lin th inp = _
    simp only [downscaleData, hdp, Option.some_bind, ← hout2d, hrr, Option.map_some']
  · rw [List.length_map, length_transposeD, hquot]

/-- C1: for an input of even time dimension `2 * T'` whose mask columns are
valid prefix-of-ones masks, downscale succeeds, halves the time dimension of
both data and mask to `T'`, and the output mask at position `j` is 1 iff the
input mask at position `2j` or `2j+1` is 1 (OR of each adjacent pair). -/
theorem downscale_halves_time_and_ors_mask (size B T' : ℕ)
    (lin : List ℚ → List ℚ) (th : ℚ → ℚ) (inp : Mat (List ℚ)) (mask : Mat ℕ)
    (hB : B ≠ 0) (hs : size ≠ 0)
    (hmlen : mask.length = 2 * T') (hmrow : ∀ row ∈ mask, row.length = B)
    (hilen : inp.length = 2 * T') (hirow : ∀ row ∈ inp, row.length = B)
    (hvecs : ∀ row ∈ inp, ∀ v ∈ row, v.length = size)
    (hcols : ∀ b < B, prefixCol (colD 0 mask b)) :
    ∃ out omask, downscale size B lin th inp mask = some (out, omask)
      ∧ out.length = T' ∧ omask.length = T'
      ∧ ∀ j < T', ∀ b < B,
          entry 0 omask j b
            = if entry 0 mask (2 * j) b ≠ 0 ∨ entry 0 mask (2 * j + 1) b ≠ 0
              then 1 else 0 := by
  obtain ⟨out, hdd, houtlen⟩ :=
    downscaleData_spec size B T' lin th inp hB hs hilen hirow hvecs
  obtain ⟨omask, hdm, homl, -, hentry⟩ := downscaleMask_spec B T' mask hB hmlen hmrow
  refine ⟨out, omask, ?_, houtlen, homl, hentry⟩
  simp only [downscale, hdd, Option.some_bind, hdm, Option.map_some']

/-- Witness for the downscale theorem: time dimension 2, one example whose
mask has one valid timestep. -/
theorem downscale_halves_time_and_ors_mask_witness :
    ∃ out omask,
      downscale 1 1 (fun _ => [0]) (fun x => x)
          ([[[5]], [[7]]] : Mat (List ℚ)) ([[1], [0]] : Mat ℕ)
        = some (out, omask)
      ∧ out.length = 1 ∧ omask.length = 1
      ∧ ∀ j < 1, ∀ b < 1,
          entry 0 omask j b
            = if entry 0 ([[1], [0]] : Mat ℕ) (2 * j) b ≠ 0
                ∨ entry 0 ([[1], [0]] : Mat ℕ) (2 * j + 1) b ≠ 0
              then 1 else 0 :=
  downscale_halves_time_and_ors_mask 1 1 1 (fun _ => [0]) (fun x => x)
    ([[[5]], [[7]]] : Mat (List ℚ)) ([[1], [0]] : Mat ℕ)
    (by decide) (by decide) (by decide) (by decide) (by decide) (by decide)
    (by decide)
    (fun b hb => by
      interval_cases b
      exact ⟨1, by decide, by decide⟩)

/-- C10: under the even-time precondition the `[-1, 2*size]` reshape pairs
exactly timesteps `2j` and `2j+1` of the same batch example into each pooled
row, while for an odd time dimension the downscale mask reshape chain fails,
so the even-length precondition is required. -/
theorem downscale_even_pairing_odd_reshape_failure :
    (∀ (size B T' : ℕ) (inp : Mat (List ℚ)),
      B ≠ 0 → size ≠ 0 → inp.length = 2 * T' →
      (∀ row ∈ inp, row.length = B) →
      (∀ row ∈ inp, ∀ v ∈ row, v.length = size) →
      ∃ inp2d, downscalePairs size B inp = some inp2d
        ∧ ∀ b < B, ∀ j < T',
            inp2d.getD (b * T' + j) []
              = entry [] inp (2 * j) b ++ entry [] inp (2 * j + 1) b)
    ∧ (∀ (B T : ℕ) (mask : Mat ℕ), B ≠ 0 → mask.length = T → Odd T →
        downscaleMask B mask = none) := by
  constructor
  · intro size B T' inp hB hs hilen hirow hvecs
    obtain ⟨inp2d, h1, -, h3⟩ :=
      downscalePairs_spec size B T' inp hB hs hilen hirow hvecs
    exact ⟨inp2d, h1, h3⟩
  · intro B T mask hB hlen hodd
    exact downscaleMask_odd B T mask hB hlen hodd

/-- Witness for the even/odd downscale theorem: per-example pairing at time
dimension 2, and failure of the mask reshape at odd time dimension 3 with
batch size 2. -/
theorem downscale_even_pairing_odd_reshape_failure_witness :
    (∃ inp2d, downscalePairs 1 1 ([[[5]], [[7]]] : Mat (List ℚ)) = some inp2d
      ∧ ∀ b < 1, ∀ j < 1,
          inp2d.getD (b * 1 + j) []
            = entry [] ([[[5]], [[7]]] : Mat (List ℚ)) (2 * j) b
              ++ entry [] ([[[5]], [[7]]] : Mat (List ℚ)) (2 * j + 1) b)
    ∧ downscaleMask 2 ([[1, 1], [1, 0], [0, 0]] : Mat ℕ) = none :=
  ⟨downscale_even_pairing_odd_reshape_failure.1 1 1 1 _ (by decide) (by decide)
      (by decide) (by decide) (by decide),
   downscale_even_pairing_odd_reshape_failure.2 2 3 _ (by decide) (by decide)
      ⟨1, by norm_num⟩⟩

/-! ### Loss module (setup_loss, source lines 139-153)

`setup_loss` flattens the decoder output to `[-1, size]`, projects to logits
(`lin`, the learned affine map), shifts the target tokens and mask left by
one timestep padding with one zero row, multiplies the per-token cross
entropies (`xent`, the float `sparse_softmax_cross_entropy_with_logits`) by
the shifted mask, reshapes to `[-1, batch_size]`, sums everything and divides
by the batch size. -/

/-- Model of `logits2d = rnn_cell.linear(tf.reshape(decoder_output, [-1, size]), ...)`. -/
def logits2d (lin : List ℚ → List ℚ) (decoder_output : Mat (List ℚ)) : List (List ℚ) :=
  decoder_output.flatten.map lin

/-- Shift a (time, batch) tensor left by one timestep (`tf.slice` from row 1)
and right-pad one zero row (`tf.pad`), as on source lines 146-150. -/
def shifted (B : ℕ) (m : Mat ℕ) : Mat ℕ := m.drop 1 ++ [List.replicate B 0]

/-- Model of `labels1d` (source line 149). -/
def labels1d (B : ℕ) (target_tokens : Mat ℕ) : List ℕ := (shifted B target_tokens).flatten

/-- Model of `mask1d` (source line 150). -/
def mask1d (B : ℕ) (target_mask : Mat ℕ) : List ℕ := (shifted B target_mask).flatten

/-- Model of `losses1d = xent(logits2d, labels1d) * tf.to_float(mask1d)`
(source line 151). -/
def losses1d (B : ℕ) (lin : List ℚ → List ℚ) (xent : List ℚ → ℕ → ℚ)
    (decoder_output : Mat (List ℚ)) (target_tokens target_mask : Mat ℕ) : List ℚ :=
  List.zipWith (fun q (mk : ℕ) => q * (mk : ℚ))
    (List.zipWith (fun lg lb => xent lg lb) (logits2d lin decoder_output)
      (labels1d B target_tokens))
    (mask1d B target_mask)

/-- Model of `NLCModel.setup_loss` (source lines 139-153): reshape `losses1d`
to `[-1, batch_size]`, sum every entry, divide by the batch size. -/
def setup_loss (B : ℕ) (lin : List ℚ → List ℚ) (xent : List ℚ → ℕ → ℚ)
    (decoder_output : Mat (List ℚ)) (target_tokens target_mask : Mat ℕ) : Option ℚ :=
  (reshapeCols B (losses1d B lin xent decoder_output target_tokens target_mask)).map
    (fun losses2d => (losses2d.map List.sum).sum / (B : ℚ))

theorem sum_unflatten {α : Type} [AddCommMonoid α] (r k : ℕ) (l : List α)
    (rows : List (List α)) (h : unflatten r k l = some rows) :
    (rows.map List.sum).sum = l.sum := by
  induction r generalizing l rows with
  | zero =>
      simp only [unflatten] at h
      by_cases he : l.isEmpty
      · rw [if_pos he, Option.some.injEq] at h
        rw [List.isEmpty_iff.mp he, ← h]
        simp
      · rw [if_neg he] at h; exact absurd h (by simp)
  | succ r ih =>
      simp only [unflatten] at h
      by_cases hk : k ≤ l.length
      · rw [if_pos hk, Option.map_eq_some'] at h
        obtain ⟨rows', hrows', hrw⟩ := h
        rw [← hrw]
        simp only [List.map_cons, List.sum_cons]
        rw [ih (l.drop k) rows' hrows']
        exact List.sum_take_add_sum_drop l k
      · rw [if_neg hk] at h; exact absurd h (by simp)

theorem sum_eq_range_getD {α : Type} [AddCommMonoid α] (l : List α) :
    l.sum = ∑ i ∈ Finset.range l.length, l.getD i 0 := by
  induction l with
  | nil => simp
  | cons a l ih =>
      rw [List.sum_cons, List.length_cons, Finset.sum_range_succ', ih]
      simp [add_comm]

theorem sum_range_add_shift {M : Type} [AddCommMonoid M] (f : ℕ → M) (a b : ℕ) :
    ∑ i ∈ Finset.range (a + b), f i
      = (∑ i ∈ Finset.range a, f i) + ∑ i ∈ Finset.range b, f (a + i) := by
  induction b with
  | zero => simp
  | succ b ih =>
      rw [show a + (b + 1) = (a + b) + 1 from rfl, Finset.sum_range_succ, ih,
        Finset.sum_range_succ, add_assoc]

theorem sum_range_mul_split {M : Type} [AddCommMonoid M] (f : ℕ → M) (T B : ℕ) :
    ∑ i ∈ Finset.range (T * B), f i
      = ∑ t ∈ Finset.range T, ∑ b ∈ Finset.range B, f (t * B + b) := by
  induction T with
  | zero => simp
  | succ T ih =>
      rw [Nat.succ_mul, sum_range_add_shift, ih, Finset.sum_range_succ]

theorem length_shifted (B : ℕ) (m : Mat ℕ) (hm : m.length ≠ 0) :
    (shifted B m).length = m.length := by
  simp only [shifted, List.length_append, List.length_drop]
  simp
  omega

theorem rows_shifted (B : ℕ) (m : Mat ℕ) (hrow : ∀ row ∈ m, row.length = B) :
    ∀ row ∈ shifted B m, row.length = B := by
  intro row hmem
  rcases List.mem_append.mp hmem with hd | hp
  · exact hrow row (List.mem_of_mem_drop hd)
  · rw [List.mem_singleton.mp hp]
    exact List.length_replicate B 0

theorem getD_replicate' {α : Type} (n i : ℕ) (a d : α) :
    (List.replicate n a).getD i d = if i < n then a else d := by
  by_cases h : i < n
  · rw [if_pos h, List.getD_eq_getElem _ _ (by simpa using h), List.getElem_replicate]
  · rw [if_neg h, List.getD_eq_default _ _ (by simpa using Nat.le_of_not_lt h)]

/-- The shifted tensor holds the original value one timestep later, and 0 at
the final (padded) row. -/
theorem entry_shifted (B : ℕ) (m : Mat ℕ) (T : ℕ) (hlen : m.length = T)
    (t : ℕ) (ht : t < T) (b : ℕ) :
    entry 0 (shifted B m) t b = if t + 1 < T then entry 0 m (t + 1) b else 0 := by
  unfold shifted entry
  by_cases h : t + 1 < T
  · rw [if_pos h]
    have hdl : t < (m.drop 1).length := by simp [List.length_drop]; omega
    rw [List.getD_append _ _ _ _ hdl, getD_drop]
    rw [Nat.add_comm 1 t]
  · rw [if_neg h]
    have hdl : (m.drop 1).length ≤ t := by simp [List.length_drop]; omega
    rw [List.getD_append_right _ _ _ _ hdl]
    have ht0 : t - (m.drop 1).length = 0 := by simp [List.length_drop]; omega
    rw [ht0]
    show (List.replicate B 0).getD b 0 = 0
    rw [getD_replicate']
    split_ifs <;> rfl

theorem length_losses1d (B T : ℕ) (lin : List ℚ → List ℚ) (xent : List ℚ → ℕ → ℚ)
    (D : Mat (List ℚ)) (tok msk : Mat ℕ)
    (hT : T ≠ 0)
    (hdlen : D.length = T) (hdrow : ∀ row ∈ D, row.length = B)
    (htlen : tok.length = T) (htrow : ∀ row ∈ tok, row.length = B)
    (hmlen : msk.length = T) (hmrow : ∀ row ∈ msk, row.length = B) :
    (losses1d B lin xent D tok msk).length = T * B := by
  have hlg : (logits2d lin D).length = T * B := by
    rw [logits2d, List.length_map, length_flatten_const D B hdrow, hdlen]
  have hlb : (labels1d B tok).length = T * B := by
    rw [labels1d, length_flatten_const _ B (rows_shifted B tok htrow),
      length_shifted B tok (by omega), htlen]
  have hmk : (mask1d B msk).length = T * B := by
    rw [mask1d, length_flatten_const _ B (rows_shifted B msk hmrow),
      length_shifted B msk (by omega), hmlen]
  rw [losses1d, List.length_zipWith, List.length_zipWith, hlg, hlb, hmk]
  simp

/-- Pointwise value of `losses1d` at flat index `t * B + b`. -/
theorem losses1d_getD (B T : ℕ) (lin : List ℚ → List ℚ) (xent : List ℚ → ℕ → ℚ)
    (D : Mat (List ℚ)) (tok msk : Mat ℕ)
    (hT : T ≠ 0)
    (hdlen : D.length = T) (hdrow : ∀ row ∈ D, row.length = B)
    (htlen : tok.length = T) (htrow : ∀ row ∈ tok, row.length = B)
    (hmlen : msk.length = T) (hmrow : ∀ row ∈ msk, row.length = B)
    (t b : ℕ) (ht : t < T) (hb : b < B) :
    (losses1d B lin xent D tok msk).getD (t * B + b) 0
      = xent (lin (entry [] D t b)) (entry 0 (shifted B tok) t b)
          * ((entry 0 (shifted B msk) t b : ℕ) : ℚ) := by
  have hlg : (logits2d lin D).length = T * B := by
    rw [logits2d, List.length_map, length_flatten_const D B hdrow, hdlen]
  have hlb : (labels1d B tok).length = T * B := by
    rw [labels1d, length_flatten_const _ B (rows_shifted B tok htrow),
      length_shifted B tok (by omega), htlen]
  have hmk : (mask1d B msk).length = T * B := by
    rw [mask1d, length_flatten_const _ B (rows_shifted B msk hmrow),
      length_shifted B msk (by omega), hmlen]
  have hidx : t * B + b < T * B := by
    calc t * B + b < t * B + B := by omega
      _ = (t + 1) * B := by ring
      _ ≤ T * B := Nat.mul_le_mul_right B (by omega)
  have hzlen : (List.zipWith (fun lg lb => xent lg lb) (logits2d lin D)
      (labels1d B tok)).length = T * B := by
    rw [List.length_zipWith, hlg, hlb, min_self]
  rw [losses1d, getD_zipWith _ _ _ _ 0 0 0 (by omega) (by omega),
    getD_zipWith _ _ _ _ [] 0 0 (by omega) (by omega)]
  have hflg : (logits2d lin D).getD (t * B + b) [] = lin (entry [] D t b) := by
    have hfl : D.flatten.length = T * B := by
      rw [length_flatten_const D B hdrow, hdlen]
    rw [logits2d, List.getD_eq_getElem _ _ (by rw [List.length_map, hfl]; omega),
      List.getElem_map]
    congr 1
    rw [← List.getD_eq_getElem _ ([] : List ℚ) (by rw [hfl]; omega)]
    exact getD_flatten_const D B ([] : List ℚ) hdrow t (by omega) b hb
  have hflb : (labels1d B tok).getD (t * B + b) 0 = entry 0 (shifted B tok) t b := by
    rw [labels1d]
    exact getD_flatten_const _ B 0 (rows_shifted B tok htrow) t
      (by rw [length_shifted B tok (by omega), htlen]; omega) b hb
  have hfmk : (mask1d B msk).getD (t * B + b) 0 = entry 0 (shifted B msk) t b := by
    rw [mask1d]
    exact getD_flatten_const _ B 0 (rows_shifted B msk hmrow) t
      (by rw [length_shifted B msk (by omega), hmlen]; omega) b hb
  rw [hflg, hflb, hfmk]

/-- C4: the loss builds next-token targets by dropping the first target row
and right-padding one zero row, applies the identically shifted mask to the
per-token cross-entropies, and returns the sum of all masked per-token losses
divided by the batch size (not the token count). -/
theorem setup_loss_shifted_masked_mean (B T : ℕ) (lin : List ℚ → List ℚ)
    (xent : List ℚ → ℕ → ℚ) (D : Mat (List ℚ)) (tok msk : Mat ℕ)
    (hB : B ≠ 0) (hT : T ≠ 0)
    (hdlen : D.length = T) (hdrow : ∀ row ∈ D, row.length = B)
    (htlen : tok.length = T) (htrow : ∀ row ∈ tok, row.length = B)
    (hmlen : msk.length = T) (hmrow : ∀ row ∈ msk, row.length = B) :
    setup_loss B lin xent D tok msk
      = some ((∑ t ∈ Finset.range T, ∑ b ∈ Finset.range B,
          xent (lin (entry [] D t b)) (entry 0 (shifted B tok) t b)
            * ((entry 0 (shifted B msk) t b : ℕ) : ℚ)) / (B : ℚ))
    ∧ (∀ t < T, ∀ b, entry 0 (shifted B tok) t b
        = if t + 1 < T then entry 0 tok (t + 1) b else 0)
    ∧ (∀ t < T, ∀ b, entry 0 (shifted B msk) t b
        = if t + 1 < T then entry 0 msk (t + 1) b else 0) := by
  refine ⟨?_, fun t ht b => entry_shifted B tok T htlen t ht b,
    fun t ht b => entry_shifted B msk T hmlen t ht b⟩
  have hlen : (losses1d B lin xent D tok msk).length = T * B :=
    length_losses1d B T lin xent D tok msk hT hdlen hdrow htlen htrow hmlen hmrow
  have hdvd : B ∣ (losses1d B lin xent D tok msk).length := ⟨T, by rw [hlen]; ring⟩
  have hquot : (losses1d B lin xent D tok msk).length / B = T := by
    rw [hlen, Nat.mul_div_cancel _ (Nat.pos_of_ne_zero hB)]
  obtain ⟨L2, hun⟩ := unflatten_isSome T B (losses1d B lin xent D tok msk)
    (by rw [hlen])
  have hrc : reshapeCols B (losses1d B lin xent D tok msk) = some L2 := by
    rw [reshapeCols, if_pos ⟨hdvd, hB⟩, hquot]
    exact hun
  rw [setup_loss, hrc, Option.map_some']
  congr 1
  rw [sum_unflatten T B _ L2 hun, sum_eq_range_getD, hlen, sum_range_mul_split]
  congr 1
  refine Finset.sum_congr rfl (fun t ht => Finset.sum_congr rfl (fun b hb => ?_))
  exact losses1d_getD B T lin xent D tok msk hT hdlen hdrow htlen htrow hmlen hmrow
    t b (Finset.mem_range.mp ht) (Finset.mem_range.mp hb)

/-- Witness for the loss-characterization theorem: batch 1, two timesteps. -/
theorem setup_loss_shifted_masked_mean_witness :
    setup_loss 1 (fun _ => []) (fun _ lb => (lb : ℚ)) ([[[1]], [[2]]] : Mat (List ℚ))
        ([[3], [4]] : Mat ℕ) ([[1], [1]] : Mat ℕ)
      = some ((∑ t ∈ Finset.range 2, ∑ b ∈ Finset.range 1,
          ((entry 0 (shifted 1 ([[3], [4]] : Mat ℕ)) t b : ℕ) : ℚ)
            * ((entry 0 (shifted 1 ([[1], [1]] : Mat ℕ)) t b : ℕ) : ℚ)) / (1 : ℚ)) :=
  (setup_loss_shifted_masked_mean 1 2 (fun _ => []) (fun _ lb => (lb : ℚ))
    ([[[1]], [[2]]] : Mat (List ℚ)) ([[3], [4]] : Mat ℕ) ([[1], [1]] : Mat ℕ)
    (by decide) (by decide) (by decide) (by decide) (by decide) (by decide)
    (by decide) (by decide)).1

/-- Write value `v` into the token tensor at time `t`, batch example `b`. -/
def updateEntry (m : Mat ℕ) (t b v : ℕ) : Mat ℕ := m.set t ((m.getD t []).set b v)

/-- Model of `self.losses` as a function of the fed batch: the decoder output
is produced by the (black-box, teacher-forced) decoder `dec` from the target
tokens and the lengths derived from the target mask (source lines 78,
118-137), then fed to `setup_loss`. -/
def model_losses (B : ℕ) (lin : List ℚ → List ℚ) (xent : List ℚ → ℕ → ℚ)
    (dec : Mat ℕ → List ℕ → Mat (List ℚ)) (tok msk : Mat ℕ) : Option ℚ :=
  setup_loss B lin xent (dec tok (reduce_sum0 B msk)) tok msk

theorem length_updateEntry (m : Mat ℕ) (t b v : ℕ) :
    (updateEntry m t b v).length = m.length := by
  simp [updateEntry]

theorem rows_updateEntry (m : Mat ℕ) (t b v B : ℕ)
    (h : ∀ row ∈ m, row.length = B) :
    ∀ row ∈ updateEntry m t b v, row.length = B := by
  intro row hrow
  rw [updateEntry] at hrow
  obtain ⟨j, hj, hrw⟩ := List.mem_iff_getElem.mp hrow
  rw [List.getElem_set] at hrw
  by_cases hjt : t = j
  · rw [if_pos hjt] at hrw
    have htl : t < m.length := by rw [List.length_set] at hj; omega
    rw [← hrw, List.length_set, List.getD_eq_getElem _ _ htl]
    exact h _ (List.getElem_mem _)
  · rw [if_neg hjt] at hrw
    rw [← hrw]
    exact h _ (List.getElem_mem _)

theorem getD_row_updateEntry_ne (m : Mat ℕ) (t0 b0 v t : ℕ) (h : t ≠ t0) :
    (updateEntry m t0 b0 v).getD t [] = m.getD t [] := by
  unfold updateEntry
  by_cases ht : t < m.length
  · rw [List.getD_eq_getElem _ _ (by rw [List.length_set]; exact ht),
      List.getElem_set, if_neg (fun hc => h hc.symm), List.getD_eq_getElem _ _ ht]
  · rw [List.getD_eq_default _ _ (by rw [List.length_set]; omega),
      List.getD_eq_default _ _ (by omega)]

theorem entry_updateEntry_ne (m : Mat ℕ) (t0 b0 v t b : ℕ)
    (h : ¬(t = t0 ∧ b = b0)) :
    entry 0 (updateEntry m t0 b0 v) t b = entry 0 m t b := by
  by_cases ht : t = t0
  · subst ht
    have hb : b ≠ b0 := fun hc => h ⟨rfl, hc⟩
    unfold entry updateEntry
    by_cases htl : t < m.length
    · rw [List.getD_eq_getElem (m.set t ((m.getD t []).set b0 v)) []
        (by rw [List.length_set]; exact htl),
        List.getElem_set, if_pos rfl]
      by_cases hbl : b < (m.getD t []).length
      · rw [List.getD_eq_getElem _ _ (by rw [List.length_set]; exact hbl),
          List.getElem_set, if_neg (fun hc => hb hc.symm),
          List.getD_eq_getElem _ _ hbl]
      · rw [List.getD_eq_default _ _ (by rw [List.length_set]; omega),
          List.getD_eq_default _ _ (by omega)]
    · rw [List.set_eq_of_length_le (by omega)]
  · unfold entry
    rw [getD_row_updateEntry_ne m t0 b0 v t ht]

/-- Changing a target token whose shifted mask factor is zero cannot change
the loss: the token only appears as the label of loss row `t0 - 1`, which the
shift carries mask entry `msk[t0]` = 0. -/
theorem setup_loss_masked_token_irrelevant (B T : ℕ) (lin : List ℚ → List ℚ)
    (xent : List ℚ → ℕ → ℚ) (D : Mat (List ℚ)) (tok msk : Mat ℕ) (t0 b0 v : ℕ)
    (hB : B ≠ 0) (hT : T ≠ 0)
    (htlen : tok.length = T) (htrow : ∀ row ∈ tok, row.length = B)
    (hmlen : msk.length = T) (hmrow : ∀ row ∈ msk, row.length = B)
    (ht0 : t0 < T) (hb0 : b0 < B)
    (hmask0 : entry 0 msk t0 b0 = 0) :
    setup_loss B lin xent D (updateEntry tok t0 b0 v) msk
      = setup_loss B lin xent D tok msk := by
  set tok' := updateEntry tok t0 b0 v with htok'
  have htlen' : tok'.length = T := by rw [htok', length_updateEntry, htlen]
  have htrow' : ∀ row ∈ tok', row.length = B := rows_updateEntry tok t0 b0 v B htrow
  have hlabA : (labels1d B tok').length = T * B := by
    rw [labels1d, length_flatten_const _ B (rows_shifted B tok' htrow'),
      length_shifted B tok' (by omega), htlen']
  have hlabB : (labels1d B tok).length = T * B := by
    rw [labels1d, length_flatten_const _ B (rows_shifted B tok htrow),
      length_shifted B tok (by omega), htlen]
  have hmk : (mask1d B msk).length = T * B := by
    rw [mask1d, length_flatten_const _ B (rows_shifted B msk hmrow),
      length_shifted B msk (by omega), hmlen]
  have hlosseq : losses1d B lin xent D tok' msk = losses1d B lin xent D tok msk := by
    have hlenA : (losses1d B lin xent D tok' msk).length
        = min (min (logits2d lin D).length (T * B)) (T * B) := by
      rw [losses1d, List.length_zipWith, List.length_zipWith, hlabA, hmk]
    have hlenB : (losses1d B lin xent D tok msk).length
        = min (min (logits2d lin D).length (T * B)) (T * B) := by
      rw [losses1d, List.length_zipWith, List.length_zipWith, hlabB, hmk]
    apply List.ext_getElem (by rw [hlenA, hlenB])
    intro i hiA hiB
    have hiA' : i < min (min (logits2d lin D).length (T * B)) (T * B) := by
      rw [← hlenA]; exact hiA
    have h1 := lt_min_iff.mp hiA'
    have h2 := lt_min_iff.mp h1.1
    have hiL : i < (logits2d lin D).length := h2.1
    have hiTB : i < T * B := h2.2
    set t := i / B with htdef
    set b := i % B with hbdef
    have hbB : b < B := Nat.mod_lt _ (Nat.pos_of_ne_zero hB)
    have htT : t < T := (Nat.div_lt_iff_lt_mul (Nat.pos_of_ne_zero hB)).mpr hiTB
    have hieq : t * B + b = i := by rw [mul_comm]; exact Nat.div_add_mod i B
    have hzA : i < (List.zipWith (fun lg lb => xent lg lb) (logits2d lin D)
        (labels1d B tok')).length := by
      rw [List.length_zipWith, hlabA]; exact lt_min_iff.mpr ⟨hiL, hiTB⟩
    have hzB : i < (List.zipWith (fun lg lb => xent lg lb) (logits2d lin D)
        (labels1d B tok)).length := by
      rw [List.length_zipWith, hlabB]; exact lt_min_iff.mpr ⟨hiL, hiTB⟩
    have hdecompA : (losses1d B lin xent D tok' msk).getD i 0
        = xent ((logits2d lin D).getD i []) ((labels1d B tok').getD i 0)
            * (((mask1d B msk).getD i 0 : ℕ) : ℚ) := by
      rw [losses1d, getD_zipWith _ _ _ _ 0 0 0 hzA (by omega),
        getD_zipWith _ _ _ _ [] 0 0 hiL (by omega)]
    have hdecompB : (losses1d B lin xent D tok msk).getD i 0
        = xent ((logits2d lin D).getD i []) ((labels1d B tok).getD i 0)
            * (((mask1d B msk).getD i 0 : ℕ) : ℚ) := by
      rw [losses1d, getD_zipWith _ _ _ _ 0 0 0 hzB (by omega),
        getD_zipWith _ _ _ _ [] 0 0 hiL (by omega)]
    have hlabAval : (labels1d B tok').getD i 0 = entry 0 (shifted B tok') t b := by
      rw [labels1d, ← hieq]
      exact getD_flatten_const _ B 0 (rows_shifted B tok' htrow') t
        (by rw [length_shifted B tok' (by omega), htlen']; omega) b hbB
    have hlabBval : (labels1d B tok).getD i 0 = entry 0 (shifted B tok) t b := by
      rw [labels1d, ← hieq]
      exact getD_flatten_const _ B 0 (rows_shifted B tok htrow) t
        (by rw [length_shifted B tok (by omega), htlen]; omega) b hbB
    have hmkval : (mask1d B msk).getD i 0 = entry 0 (shifted B msk) t b := by
      rw [mask1d, ← hieq]
      exact getD_flatten_const _ B 0 (rows_shifted B msk hmrow) t
        (by rw [length_shifted B msk (by omega), hmlen]; omega) b hbB
    rw [← List.getD_eq_getElem _ (0 : ℚ) hiA, ← List.getD_eq_getElem _ (0 : ℚ) hiB,
      hdecompA, hdecompB]
    by_cases hcase : t + 1 = t0 ∧ b = b0
    · have hmz : (mask1d B msk).getD i 0 = 0 := by
        rw [hmkval, entry_shifted B msk T hmlen t htT b,
          if_pos (by omega : t + 1 < T), hcase.1, hcase.2]
        exact hmask0
      rw [hmz]
      simp
    · have hlab : (labels1d B tok').getD i 0 = (labels1d B tok).getD i 0 := by
        rw [hlabAval, hlabBval,
          entry_shifted B tok' T htlen' t htT b,
          entry_shifted B tok T htlen t htT b]
        by_cases ht1 : t + 1 < T
        · rw [if_pos ht1, if_pos ht1]
          exact entry_updateEntry_ne tok t0 b0 v (t + 1) b hcase
        · rw [if_neg ht1, if_neg ht1]
      rw [hlab]
  show (reshapeCols B (losses1d B lin xent D tok' msk)).map _
      = (reshapeCols B (losses1d B lin xent D tok msk)).map _
  rw [hlosseq]

/-- C3: two-run noninterference of masked token values.  For a batch whose
target-mask columns are valid prefix-of-ones masks, pick any position whose
mask entry is 0 and replace the corresponding target token by an arbitrary
vocabulary index: the total scalar loss is unchanged.  The decoder is a black
box that reads target tokens only below the per-example valid lengths
(the contract of `dynamic_rnn` with `sequence_length=target_length`). -/
theorem masked_positions_contribute_zero (B T : ℕ) (lin : List ℚ → List ℚ)
    (xent : List ℚ → ℕ → ℚ) (dec : Mat ℕ → List ℕ → Mat (List ℚ))
    (tok msk : Mat ℕ) (t0 b0 v : ℕ)
    (hB : B ≠ 0)
    (htlen : tok.length = T) (htrow : ∀ row ∈ tok, row.length = B)
    (hmlen : msk.length = T) (hmrow : ∀ row ∈ msk, row.length = B)
    (hcols : ∀ b < B, prefixCol (colD 0 msk b))
    (hdec : ∀ tok₁ tok₂ lens,
      (∀ b < B, ∀ t, t < lens.getD b 0 → entry 0 tok₁ t b = entry 0 tok₂ t b) →
      dec tok₁ lens = dec tok₂ lens)
    (ht0 : t0 < T) (hb0 : b0 < B)
    (hmask0 : entry 0 msk t0 b0 = 0) :
    model_losses B lin xent dec (updateEntry tok t0 b0 v) msk
      = model_losses B lin xent dec tok msk := by
  have hT : T ≠ 0 := by omega
  have hones : ∀ b < B, ∀ t, t < (reduce_sum0 B msk).getD b 0 →
      entry 0 msk t b = 1 := by
    intro b hb t ht
    obtain ⟨k, hk, hcol⟩ := hcols b hb
    have hsum : (reduce_sum0 B msk).getD b 0 = k := by
      rw [reduce_sum0_getD B msk hmrow b hb, sum_prefixCol _ k hk hcol]
    rw [hsum] at ht
    have hct : (colD 0 msk b).getD t 0 = 1 := by
      rw [hcol, List.getD_append _ _ _ _ (by simp [List.length_replicate]; omega),
        getD_replicate', if_pos ht]
    rw [← getD_colD]
    exact hct
  have hagree : ∀ b < B, ∀ t, t < (reduce_sum0 B msk).getD b 0 →
      entry 0 (updateEntry tok t0 b0 v) t b = entry 0 tok t b := by
    intro b hb t ht
    apply entry_updateEntry_ne
    rintro ⟨rfl, rfl⟩
    have := hones b hb t ht
    rw [hmask0] at this
    exact absurd this (by omega)
  have hdeceq : dec (updateEntry tok t0 b0 v) (reduce_sum0 B msk)
      = dec tok (reduce_sum0 B msk) := hdec _ _ _ hagree
  show setup_loss B lin xent (dec (updateEntry tok t0 b0 v) (reduce_sum0 B msk))
      (updateEntry tok t0 b0 v) msk = _
  rw [hdeceq]
  exact setup_loss_masked_token_irrelevant B T lin xent _ tok msk t0 b0 v hB hT
    htlen htrow hmlen hmrow ht0 hb0 hmask0

/-- Witness for the noninterference theorem: batch 1, two timesteps, the
second target position masked out and its token replaced by 9. -/
theorem masked_positions_contribute_zero_witness :
    model_losses 1 (fun _ => []) (fun _ lb => (lb : ℚ)) (fun _ _ => [])
        (updateEntry ([[3], [4]] : Mat ℕ) 1 0 9) ([[1], [0]] : Mat ℕ)
      = model_losses 1 (fun _ => []) (fun _ lb => (lb : ℚ)) (fun _ _ => [])
        ([[3], [4]] : Mat ℕ) ([[1], [0]] : Mat ℕ) :=
  masked_positions_contribute_zero 1 2 (fun _ => []) (fun _ lb => (lb : ℚ))
    (fun _ _ => []) ([[3], [4]] : Mat ℕ) ([[1], [0]] : Mat ℕ) 1 0 9
    (by decide) (by decide) (by decide) (by decide) (by decide)
    (fun b hb => by
      interval_cases b
      exact ⟨1, by decide, by decide⟩)
    (fun _ _ _ _ => rfl)
    (by decide) (by decide) (by decide)

end NLC
